import Mathlib

/-!
# Verification of the codestyle rule engine (Rust checks core)

Shallow embedding of the rule engine of the `codestyle` repository
(`src/rust_checks/…`) and proofs about it.  Source text is modelled as a
Lean `String`; the source program indexes text by bytes, and all inputs
considered here are ASCII, where byte offsets, `char_indices` offsets and
character counts coincide, so the embedding uses character indices
throughout.  Each definition mirrors one function of the source tree,
named in its doc comment.
-/

namespace Codestyle

/-! ## Core data model (`src/rust_checks/mod.rs`) -/

/-- The `Fix` from `mod.rs`: a half-open byte range plus replacement text. -/
structure Fix where
  start_byte : Nat
  end_byte : Nat
  replacement : String
deriving Repr, DecidableEq

/-- The `Violation` from `mod.rs`. -/
structure Violation where
  rule : String
  file : String
  line : Nat
  column : Nat
  message : String
  fix : Option Fix
deriving Repr, DecidableEq

/-! ## String helpers

The Rust code slices `&content[a..b]`, calls `String::replace_range`,
`str::trim`, `str::find` and friends.  These are the corresponding
character-indexed operations. -/

/-- The `&content[a..b]` (half-open slice). -/
def sliceStr (s : String) (a b : Nat) : String :=
  ((s.toList.drop a).take (b - a)).asString

/-- The `String::replace_range(a..b, r)`. -/
def replaceRange (s : String) (a b : Nat) (r : String) : String :=
  ((s.toList.take a) ++ r.toList ++ (s.toList.drop b)).asString

/-- The `str::trim_start_matches('\n')`. -/
def trimStartNewlines (s : String) : String :=
  (s.toList.dropWhile (fun c => c = '\n')).asString

/-- Rust `str::trim` (whitespace from both ends). -/
def rustTrim (s : String) : String :=
  ((s.toList.dropWhile Char.isWhitespace).reverse.dropWhile Char.isWhitespace).reverse.asString

/-- Rust `str::trim_start`. -/
def rustTrimStart (s : String) : String :=
  (s.toList.dropWhile Char.isWhitespace).asString

/-- Rust `str::trim_end`. -/
def rustTrimEnd (s : String) : String :=
  (s.toList.reverse.dropWhile Char.isWhitespace).reverse.asString

/-- Rust `str::strip_prefix(p)`. -/
def stripPfx (s p : String) : Option String :=
  if p.toList.isPrefixOf s.toList then some ((s.toList.drop p.length).asString) else none

/-- Rust `str::starts_with(p)`. -/
def startsWithStr (s p : String) : Bool := p.toList.isPrefixOf s.toList

/-- Helper loop of `span_position_to_byte` / `span_to_byte`: walk the
characters with their index, tracking the current line number and the
index at which it starts. -/
def spanGo (line column : Nat) : List Char → Nat → Nat → Nat → Option Nat
  | [], _, curLine, lineStart =>
    if curLine = line then some (lineStart + column) else none
  | c :: rest, i, curLine, lineStart =>
    if curLine = line then some (lineStart + column)
    else if c = '\n' then spanGo line column rest (i + 1) (curLine + 1) (i + 1)
    else spanGo line column rest (i + 1) curLine lineStart

/-- The `span_position_to_byte` (`impl_follows_type.rs`, `join_split_impls.rs`,
`embed_simple_vars.rs`) and `span_to_byte` (`use_bail.rs`): convert a
1-based line and 0-based column to an offset into the content.  In the
ASCII model the byte-offset and char-offset variants of the source
coincide, so one definition serves all of them. -/
def spanPositionToByte (content : String) (line column : Nat) : Option Nat :=
  spanGo line column content.toList 0 1 0

/-- The `find_line_start` (`impl_follows_type.rs`): start of the line
containing `pos`. -/
def findLineStart (content : String) (pos : Nat) : Nat :=
  match ((content.toList.take pos).reverse.findIdx? (fun c => c = '\n')) with
  | some j => pos - j
  | none => 0

/-- The `find_line_end` (`impl_follows_type.rs`): position of the newline
ending the line containing `pos` (or end of content). -/
def findLineEnd (content : String) (pos : Nat) : Nat :=
  match ((content.toList.drop pos).findIdx? (fun c => c = '\n')) with
  | some i => pos + i
  | none => content.length

/-! ## Rule `impl-follows-type` (`src/rust_checks/impl_follows_type.rs`) -/

/-- The `TypeDef` from `impl_follows_type.rs`. -/
structure TypeDefInfo where
  end_line : Nat
  end_byte : Nat
deriving Repr, DecidableEq

/-- The positional data of `ImplBlock` from `impl_follows_type.rs`
(the embedding carries positions rather than a borrowed `ItemImpl`). -/
structure ImplBlockPos where
  start_line : Nat
  start_byte : Nat
  end_byte : Nat
deriving Repr, DecidableEq

/-- The `create_relocation_fix` from `impl_follows_type.rs`: relocate an impl
block to immediately follow its type definition.  Note the `else` branch:
when other code lies between the type definition and the impl block, the
source still returns `Some`, reordering the impl block before the
intervening code. -/
def createRelocationFix (content : String) (td : TypeDefInfo) (ib : ImplBlockPos) : Option Fix :=
  let implLineStart := findLineStart content ib.start_byte
  let implText := sliceStr content implLineStart ib.end_byte
  let insertPos := findLineEnd content td.end_byte
  let betweenText := sliceStr content insertPos implLineStart
  if rustTrim betweenText = "" then
    let replacement := "\n" ++ trimStartNewlines implText
    some { start_byte := insertPos, end_byte := ib.end_byte, replacement := replacement }
  else
    let betweenTrimmed := rustTrim betweenText
    let replacement := "\n" ++ trimStartNewlines implText ++ "\n\n" ++ betweenTrimmed
    some { start_byte := insertPos, end_byte := ib.end_byte, replacement := replacement }

/-- The per-impl body of the second loop of `check` in
`impl_follows_type.rs` (lines 82-100): emit a violation when the impl
block starts more than one line after the type definition ends
(`expected_line = end_line + 1`; violation when
`start_line > expected_line + 1`). -/
def checkImplAgainstType (content pathStr typeName : String) (td : TypeDefInfo) (ib : ImplBlockPos) (startColumn : Nat) : Option Violation :=
  let expectedLine := td.end_line + 1
  if ib.start_line > expectedLine + 1 then
    let gap := ib.start_line - td.end_line - 1
    let fix := createRelocationFix content td ib
    some
      { rule := "impl-follows-type"
        file := pathStr
        line := ib.start_line
        column := startColumn
        message := "`impl " ++ typeName ++ "` should follow type definition (line " ++ toString td.end_line ++ "), but has " ++ toString gap ++ " blank line(s)"
        fix := fix }
  else
    none

/-! ## Rule `embed-simple-vars` (`src/rust_checks/embed_simple_vars.rs`)

Token streams of a macro invocation are modelled after `proc_macro2`:
identifiers, punctuation, literals, and groups.  A group carries its
rendered text (what `Group::to_string()` yields, delimiters included),
which is all the source uses it for. -/

/-- A parser span: 1-based lines, 0-based columns (`proc_macro2::Span`). -/
structure SpanLC where
  startLine : Nat
  startCol : Nat
  endLine : Nat
  endCol : Nat
deriving Repr, DecidableEq

/-- The `proc_macro2::TokenTree`, flattened to what the rule inspects. -/
inductive Tok where
  | ident (name : String) (span : SpanLC)
  | punct (ch : Char) (span : SpanLC)
  | lit (text : String) (span : SpanLC)
  | group (text : String) (span : SpanLC)
deriving Repr, DecidableEq

/-- The `TokenTree::span()`. -/
def Tok.span : Tok → SpanLC
  | .ident _ sp => sp
  | .punct _ sp => sp
  | .lit _ sp => sp
  | .group _ sp => sp

/-- The `TokenTree::to_string()` (for groups: delimiters included). -/
def Tok.text : Tok → String
  | .ident n _ => n
  | .punct c _ => String.mk [c]
  | .lit t _ => t
  | .group t _ => t

/-- The string-literal test of `analyze_format_macro_tokens` lines 66-74:
the literal's rendering starts with `"`, `r#`, or `r"`. -/
def isFormatStringLit (t : String) : Bool :=
  startsWithStr t "\"" || startsWithStr t "r#" || startsWithStr t "r\""

/-- Find the format string: the first `Literal` token passing
`isFormatStringLit`, with its index and span (lines 60-82). -/
def findFormatString : List Tok → Nat → Option (Nat × String × SpanLC)
  | [], _ => none
  | .lit text sp :: rest, i =>
    if isFormatStringLit text then some (i, text, sp) else findFormatString rest (i + 1)
  | _ :: rest, i => findFormatString rest (i + 1)

/-- The `Placeholder` from `embed_simple_vars.rs` (`stop` is the source's
`end` field, a Lean keyword). -/
structure Placeholder where
  start : Nat
  stop : Nat
  specifier : String
deriving Repr, DecidableEq

/-- Character at index `i` (only consulted under an `i < length` guard,
mirroring the source's direct `bytes[i]` indexing). -/
def charAt (s : List Char) (i : Nat) : Char := s.getD i ' '

/-- The inner scan of `find_embeddable_placeholders`: first `}` at index
`≥ j`. -/
def findCloseBraceFrom (s : List Char) (j : Nat) : Option Nat :=
  match (s.drop j).findIdx? (fun c => c = '\x7d') with
  | some k => some (j + k)
  | none => none

/-- The scanning loop of `find_embeddable_placeholders`, fuelled (the
source's `while` advances `i` by at least one per round, so fuel
`s.length + 1` is never exhausted). -/
def findPlaceholdersGo (s : List Char) : Nat → Nat → List Placeholder
  | _, 0 => []
  | i, fuel + 1 =>
    if i < s.length then
      if charAt s i = '\x7b' then
        if i + 1 < s.length ∧ charAt s (i + 1) = '\x7b' then
          findPlaceholdersGo s (i + 2) fuel
        else
          match findCloseBraceFrom s (i + 1) with
          | none => findPlaceholdersGo s (i + 1) fuel
          | some endPos =>
            let inner := ((s.drop (i + 1)).take (endPos - (i + 1))).asString
            if inner = "" then
              { start := i, stop := endPos + 1, specifier := "" } :: findPlaceholdersGo s (endPos + 1) fuel
            else if startsWithStr inner ":" then
              { start := i, stop := endPos + 1, specifier := inner } :: findPlaceholdersGo s (endPos + 1) fuel
            else
              findPlaceholdersGo s (endPos + 1) fuel
      else
        findPlaceholdersGo s (i + 1) fuel
    else []

/-- The `find_embeddable_placeholders` from `embed_simple_vars.rs`. -/
def findEmbeddablePlaceholders (fmt : String) : List Placeholder :=
  findPlaceholdersGo fmt.toList 0 (fmt.length + 1)

/-- The `is_simple_identifier` from `embed_simple_vars.rs`. -/
def isSimpleIdentifier (s : String) : Bool :=
  match s.toList with
  | [] => false
  | c :: rest => (c.isAlpha || c = '_') && rest.all (fun ch => ch.isAlphanum || ch = '_')

/-- The `tokens.get(i)`. -/
def tokGet? (tokens : List Tok) (i : Nat) : Option Tok := tokens.get? i

/-- Is this token a comma punct (the break condition of
`collect_complex_argument`; the source's `depth` counter is incremented
and decremented within the same `Group` arm, so it is always `0` at the
comma test). -/
def isCommaTok : Tok → Bool
  | .punct c _ => c = ','
  | _ => false

/-- The accumulation loop of `collect_complex_argument`, fuelled. -/
def collectComplexGo (tokens : List Tok) : Nat → Nat → String → SpanLC → (String × SpanLC × Nat)
  | i, 0, result, lastSpan => (result, lastSpan, i)
  | i, fuel + 1, result, lastSpan =>
    match tokGet? tokens i with
    | none => (result, lastSpan, i)
    | some tok =>
      if isCommaTok tok then (result, lastSpan, i)
      else collectComplexGo tokens (i + 1) fuel (result ++ tok.text) tok.span

/-- The `collect_complex_argument` from `embed_simple_vars.rs`. -/
def collectComplexArgument (tokens : List Tok) (start : Nat) : Option (String × SpanLC × Nat) :=
  match tokGet? tokens start with
  | none => none
  | some t0 =>
    let r := collectComplexGo tokens start (tokens.length + 1) "" t0.span
    if r.1 = "" then none else some (rustTrim r.1, r.2.1, r.2.2)

/-- The `collect_argument` from `embed_simple_vars.rs`: a lone identifier is
returned as-is; an identifier followed by `.` or `:` (or any non-ident
head) is collected as a complex argument. -/
def collectArgument (tokens : List Tok) (start : Nat) : Option (String × SpanLC × Nat) :=
  if start ≥ tokens.length then none
  else
    match tokGet? tokens start with
    | some (.ident name sp) =>
      match tokGet? tokens (start + 1) with
      | some (.punct c _) =>
        if c = '.' ∨ c = ':' then collectComplexArgument tokens start
        else some (name, sp, start + 1)
      | _ => some (name, sp, start + 1)
    | _ => collectComplexArgument tokens start

/-- The argument-collection `while` of `analyze_format_macro_tokens`
(lines 91-107), fuelled. -/
def collectArgsGo (tokens : List Tok) : Nat → Nat → List (String × SpanLC) → List (String × SpanLC)
  | _, 0, acc => acc
  | i, fuel + 1, acc =>
    if i < tokens.length then
      match tokGet? tokens i with
      | some (.punct ',' _) => collectArgsGo tokens (i + 1) fuel acc
      | _ =>
        match collectArgument tokens i with
        | some (s, sp, next) => collectArgsGo tokens next fuel (acc ++ [(s, sp)])
        | none => collectArgsGo tokens (i + 1) fuel acc
    else acc

/-- The `simple_args` list of `analyze_format_macro_tokens` (lines
115-126): placeholder/argument pairs whose argument is a bare
identifier. -/
def simpleArgsOf (placeholders : List Placeholder) (args : List (String × SpanLC)) : List (Placeholder × String × SpanLC) :=
  (placeholders.zip args).filterMap
    (fun pa => if isSimpleIdentifier pa.2.1 then some (pa.1, pa.2.1, pa.2.2) else none)

/-- The `simple_indices` set (lines 132-138), as a list of indices. -/
def simpleIndicesOf (placeholders : List Placeholder) (args : List (String × SpanLC)) : List Nat :=
  (placeholders.zip args).enum.filterMap
    (fun ia => if isSimpleIdentifier ia.2.2.1 then some ia.1 else none)

/-- The `new_fmt` construction (lines 140-146): rewrite each simple
argument's placeholder, walking the simple pairs in reverse so earlier
placeholder offsets stay valid. -/
def buildNewFmt (fmtContent : String) (simpleArgs : List (Placeholder × String × SpanLC)) : String :=
  simpleArgs.reverse.foldl
    (fun acc psa => replaceRange acc psa.1.start psa.1.stop ("\x7b" ++ psa.2.1 ++ psa.1.specifier ++ "\x7d"))
    fmtContent

/-- The `remaining_args` list (lines 148-153): the non-simple arguments,
by index, in original order. -/
def remainingArgsOf (placeholders : List Placeholder) (args : List (String × SpanLC)) : List String :=
  args.enum.filterMap
    (fun ia => if (simpleIndicesOf placeholders args).contains ia.1 then none else some ia.2.1)

/-- The `create_full_macro_fix` from `embed_simple_vars.rs`. -/
def createFullMacroFix (newFmt : String) (fmtSpan : SpanLC) (lastArgSpan : Option SpanLC) (content : String) : Option Fix :=
  match lastArgSpan with
  | none => none
  | some lastSp =>
    match spanPositionToByte content fmtSpan.startLine fmtSpan.startCol with
    | none => none
    | some fmtStart =>
      match spanPositionToByte content lastSp.endLine lastSp.endCol with
      | none => none
      | some lastArgEnd =>
        let tail := (content.toList.drop fmtStart).asString
        if !startsWithStr tail "\"" && !startsWithStr tail "r#" && !startsWithStr tail "r\"" then none
        else some { start_byte := fmtStart, end_byte := lastArgEnd, replacement := newFmt }

/-- The fix selection of `analyze_format_macro_tokens` (lines 155-166). -/
def mkMacroFix (content fmtContent : String) (fmtSpan : SpanLC) (placeholders : List Placeholder) (args : List (String × SpanLC)) : Option Fix :=
  let simpleArgs := simpleArgsOf placeholders args
  let newFmt := buildNewFmt fmtContent simpleArgs
  let remaining := remainingArgsOf placeholders args
  let lastArgSpan := (args.getLast?).map Prod.snd
  if remaining = [] then
    createFullMacroFix newFmt fmtSpan lastArgSpan content
  else
    createFullMacroFix (newFmt ++ ", " ++ String.intercalate ", " remaining) fmtSpan lastArgSpan content

/-- The violation pushed per embedded variable (the loop body of
`analyze_format_macro_tokens`, lines 168-185; every violation of one
invocation shares the one computed fix). -/
def mkEmbedViolation (pathStr : String) (fix : Option Fix) (psa : Placeholder × String × SpanLC) : Violation :=
  let specDisplay :=
    if psa.1.specifier = "" then "\x7b\x7d" else "\x7b" ++ psa.1.specifier ++ "\x7d"
  { rule := "embed-simple-vars"
    file := pathStr
    line := psa.2.2.startLine
    column := psa.2.2.startCol
    message := "variable `" ++ psa.2.1 ++ "` should be embedded in format string: use `\x7b" ++ psa.2.1 ++ psa.1.specifier ++ "\x7d` instead of `" ++ specDisplay ++ ", " ++ psa.2.1 ++ "`"
    fix := fix }

/-- The placeholder/argument stage of `analyze_format_macro_tokens`
(lines 109-185): abort on a count mismatch or when no argument is
simple, otherwise emit one violation per simple argument, all carrying
the invocation's fix. -/
def analyzeWithArgs (pathStr content fmtContent : String) (fmtSpan : SpanLC)
    (placeholders : List Placeholder) (args : List (String × SpanLC)) : List Violation :=
  if placeholders.length ≠ args.length then []
  else if simpleArgsOf placeholders args = [] then []
  else
    (simpleArgsOf placeholders args).map
      (mkEmbedViolation pathStr (mkMacroFix content fmtContent fmtSpan placeholders args))

/-- The `analyze_format_macro_tokens` from `embed_simple_vars.rs`: the whole
per-invocation analysis, returning the violations it pushes (each
carrying the shared fix).  `pathStr` is the visitor's `path_str`. -/
def analyzeFormatMacroTokens (pathStr content : String) (tokens : List Tok) : List Violation :=
  match findFormatString tokens 0 with
  | none => []
  | some (fmtIdx, fmtContent, fmtSpan) =>
    if (findEmbeddablePlaceholders fmtContent).length = 0 then []
    else
      analyzeWithArgs pathStr content fmtContent fmtSpan
        (findEmbeddablePlaceholders fmtContent)
        (collectArgsGo tokens (fmtIdx + 1) (tokens.length + 1) [])

/-! ## The format-macro visitor and its deduplication
(`embed_simple_vars.rs`, `check_format_macro` lines 39-55)

The syn visitor reaches a macro through `visit_expr_macro` and
`visit_macro`; the traversal is modelled as the list of `check_format_macro`
calls it makes, in visitation order. -/

/-- The `FORMAT_MACROS` from `embed_simple_vars.rs`. -/
def FORMAT_MACROS : List String :=
  ["format", "write", "writeln", "print", "println", "eprint", "eprintln", "format_args",
   "panic", "todo", "unimplemented", "unreachable",
   "log", "trace", "debug", "info", "warn", "error",
   "assert", "assert_eq", "assert_ne", "debug_assert", "debug_assert_eq", "debug_assert_ne",
   "bail", "ensure", "anyhow", "eyre"]

/-- A `syn::Macro` as `check_format_macro` consumes it: the last path
segment, the token stream, and the invocation span. -/
structure MacroInv where
  name : String
  tokens : List Tok
  span : SpanLC
deriving Repr, DecidableEq

/-- The dedup key of `check_format_macro`: the span's start position. -/
def macroKey (m : MacroInv) : Nat × Nat := (m.span.startLine, m.span.startCol)

/-- Visitor state: the `seen_spans` set (modelled as a list with
membership) and the accumulated violations. -/
structure FmtVisitState where
  seen : List (Nat × Nat)
  violations : List Violation
deriving Repr, DecidableEq

/-- The `check_format_macro` from `embed_simple_vars.rs`: skip if the span
start was seen; otherwise record it, and analyze the tokens when the
macro name is a format macro. -/
def checkFormatMacroStep (pathStr content : String) (st : FmtVisitState) (m : MacroInv) : FmtVisitState :=
  if macroKey m ∈ st.seen then st
  else
    let st1 : FmtVisitState := { st with seen := macroKey m :: st.seen }
    if FORMAT_MACROS.contains m.name then
      { st1 with violations := st1.violations ++ analyzeFormatMacroTokens pathStr content m.tokens }
    else st1

/-- One whole visitor run (`check` in `embed_simple_vars.rs`): fold
`check_format_macro` over the macros in visitation order, starting from
the fresh state of `FormatMacroVisitor::new`. -/
def runFormatMacroVisitor (pathStr content : String) (ms : List MacroInv) : List Violation :=
  (ms.foldl (checkFormatMacroStep pathStr content) { seen := [], violations := [] }).violations

/-! ## Rule `use-bail` (`src/rust_checks/use_bail.rs`) -/

/-- The `ErrorCrate` from `use_bail.rs`. -/
inductive ErrorCrate where
  | eyre
  | colorEyre
deriving Repr, DecidableEq

/-- The `syn::UseTree`, as traversed by `check_use_tree_for_error_crate`. -/
inductive UseTree where
  | path (ident : String) (tree : UseTree)
  | name (ident : String)
  | rename (ident renameTo : String)
  | glob
  | group (items : List UseTree)
deriving Repr

/-- The import-scanning fields of `UseBailVisitor`. -/
structure UseBailScan where
  errorCrate : Option ErrorCrate
  bailImported : Bool
  importInsertPos : Option Nat
  importPfx : Option String
deriving Repr, DecidableEq

/-- Fresh scan state (`UseBailVisitor::new`, before `scan_imports`). -/
def initUseBailScan : UseBailScan :=
  { errorCrate := none, bailImported := false, importInsertPos := none, importPfx := none }

/-- The scanning loop of `record_import_position`: find the first `;` on
`startLine`, returning the offset just past it. -/
def recordImportGo (startLine : Nat) : List Char → Nat → Nat → Option Nat
  | [], _, _ => none
  | c :: rest, i, curLine =>
    if curLine = startLine ∧ c = ';' then some (i + 1)
    else recordImportGo startLine rest (i + 1) (if c = '\n' then curLine + 1 else curLine)

/-- The `record_import_position` from `use_bail.rs` (the source's `pos > 0`
test holds exactly when the scan found a `;`, since it sets
`pos = i + 1 ≥ 1`). -/
def recordImportPosition (content : String) (spanStartLine : Nat) (st : UseBailScan) : UseBailScan :=
  match st.importInsertPos with
  | some _ => st
  | none =>
    match recordImportGo spanStartLine content.toList 0 1 with
    | some pos => { st with importInsertPos := some pos }
    | none => st

mutual

/-- The `check_use_tree_for_error_crate` from `use_bail.rs`. -/
def scanUseTree (content : String) (t : UseTree) (pfx : String) (spanLine : Nat) (st : UseBailScan) : UseBailScan :=
  match t with
  | .path ident sub =>
    let newPfx := if pfx = "" then ident else pfx ++ "::" ++ ident
    let st1 :=
      if ident = "eyre" ∧ pfx = "" then
        recordImportPosition content spanLine
          { st with errorCrate := some .eyre, importPfx := some "eyre" }
      else if ident = "color_eyre" ∧ pfx = "" then
        recordImportPosition content spanLine
          { st with errorCrate := some .colorEyre, importPfx := some "color_eyre::eyre" }
      else st
    scanUseTree content sub newPfx spanLine st1
  | .name ident => if ident = "bail" then { st with bailImported := true } else st
  | .rename ident _ => if ident = "bail" then { st with bailImported := true } else st
  | .glob => { st with bailImported := true }
  | .group items => scanUseTrees content items pfx spanLine st

/-- The `Group` arm of `check_use_tree_for_error_crate`. -/
def scanUseTrees (content : String) (ts : List UseTree) (pfx : String) (spanLine : Nat) (st : UseBailScan) : UseBailScan :=
  match ts with
  | [] => st
  | t :: rest => scanUseTrees content rest pfx spanLine (scanUseTree content t pfx spanLine st)

end

/-- The `scan_imports` from `use_bail.rs`: fold the file's `use` items (each
a tree plus its span's start line) through the scanner, prefix `""`. -/
def scanImports (content : String) (uses : List (UseTree × Nat)) : UseBailScan :=
  uses.foldl (fun st tl => scanUseTree content tl.1 "" tl.2 st) initUseBailScan

mutual

/-- Does a use tree contain a glob (`use …::*`)? -/
def hasGlob : UseTree → Bool
  | .path _ sub => hasGlob sub
  | .name _ => false
  | .rename _ _ => false
  | .glob => true
  | .group items => hasGlobList items

/-- The `hasGlob` over a list of trees. -/
def hasGlobList : List UseTree → Bool
  | [] => false
  | t :: rest => hasGlob t || hasGlobList rest

end

/-- The expression forms `check_return_err` pattern-matches on: a call
whose callee is a path (carrying its last segment), a macro invocation
(last path segment plus rendered token stream), or anything else. -/
inductive ExprM where
  | call (funcLast : String) (args : List ExprM)
  | emac (pathLast : String) (tokensText : String)
  | other
deriving Repr

/-- The `syn::ExprReturn`: optional returned expression plus span. -/
structure ReturnExprM where
  expr : Option ExprM
  span : SpanLC
deriving Repr

/-- The `create_fix` from `use_bail.rs`.  When `bail` is not imported
and an import position is known, the fix widens from the import
position to the return end (requiring the prefix, whose absence aborts
the fix);
otherwise it replaces exactly the return expression's span. -/
def createBailFix (st : UseBailScan) (content : String) (retSpan : SpanLC) (macContent : String) : Option Fix :=
  match spanPositionToByte content retSpan.startLine retSpan.startCol with
  | none => none
  | some returnStart =>
    match spanPositionToByte content retSpan.endLine retSpan.endCol with
    | none => none
    | some returnEnd =>
      let bailCall := "bail!(" ++ macContent ++ ")"
      match st.bailImported, st.importInsertPos with
      | false, some importPos =>
        match st.importPfx with
        | none => none
        | some pfx =>
          let importStmt := "\nuse " ++ pfx ++ "::bail;"
          if importPos < returnStart then
            some { start_byte := importPos, end_byte := returnEnd,
                   replacement := importStmt ++ sliceStr content importPos returnStart ++ bailCall }
          else
            some { start_byte := returnStart, end_byte := returnEnd, replacement := bailCall }
      | _, _ => some { start_byte := returnStart, end_byte := returnEnd, replacement := bailCall }

/-- Visitor state for the `use-bail` traversal. -/
structure BailVisitState where
  seen : List (Nat × Nat)
  violations : List Violation
deriving Repr, DecidableEq

/-- The `check_return_err` from `use_bail.rs`: fire on `return Err(eyre!(…))`,
deduplicated by the return expression's span start. -/
def checkReturnErrStep (scan : UseBailScan) (pathStr content : String) (st : BailVisitState) (r : ReturnExprM) : BailVisitState :=
  match r.expr with
  | none => st
  | some e =>
    match e with
    | .call funcLast args =>
      if funcLast ≠ "Err" then st
      else
        match args.head? with
        | some (.emac macName macToks) =>
          if macName ≠ "eyre" then st
          else
            let key := (r.span.startLine, r.span.startCol)
            if key ∈ st.seen then st
            else
              let fix := createBailFix scan content r.span macToks
              { seen := key :: st.seen
                violations := st.violations ++
                  [{ rule := "use-bail"
                     file := pathStr
                     line := r.span.startLine
                     column := r.span.startCol
                     message := "use `bail!(...)` instead of `return Err(" ++ macName ++ "!(...))`"
                     fix := fix }] }
        | _ => st
    | _ => st

/-- One whole `use-bail` visitor run (`check` in `use_bail.rs`): scan
the imports, then fold `check_return_err` over the visited return
expressions in traversal order. -/
def runUseBailVisitor (pathStr content : String) (uses : List (UseTree × Nat)) (returns : List ReturnExprM) : List Violation :=
  let scan := scanImports content uses
  (returns.foldl (checkReturnErrStep scan pathStr content) { seen := [], violations := [] }).violations

/-! ## Suppression markers (`src/rust_checks/skip.rs`) -/

/-- The `SkipMarker` from `skip.rs`. -/
inductive SkipMarker where
  | all
  | rule (name : String)
deriving Repr, DecidableEq

/-- The `parse_skip_suffix` from `skip.rs`: after `codestyle::skip`, an empty
rest or a leading `]` means skip-all; `(name)` with a nonempty trimmed
name means skip that rule; anything else is not a marker. -/
def parseSkipSuffix (rest : String) : Option SkipMarker :=
  let rest := rustTrimStart rest
  if rest = "" ∨ startsWithStr rest "]" then some .all
  else
    match stripPfx rest "(" with
    | some afterParen =>
      match (afterParen.toList.findIdx? (fun c => c = ')')) with
      | none => none
      | some endIdx =>
        let ruleName := rustTrim ((afterParen.toList.take endIdx).asString)
        if ruleName ≠ "" then some (.rule ruleName) else none
    | none => none

/-- The `parse_skip_comment` from `skip.rs`: trim the line, strip `//`,
trim, then recognize `#[codestyle::skip…` or `@codestyle::skip…`. -/
def parseSkipComment (line : String) : Option SkipMarker :=
  let trimmed := rustTrim line
  match stripPfx trimmed "//" with
  | none => none
  | some afterSlashes =>
    let afterSlashes := rustTrimStart afterSlashes
    match stripPfx afterSlashes "#[codestyle::skip" with
    | some rest => parseSkipSuffix rest
    | none =>
      match stripPfx afterSlashes "@codestyle::skip" with
      | some rest => parseSkipSuffix rest
      | none => none

/-- The accumulator loop of `splitNewlines`. -/
def splitNewlinesGo : List Char → List Char → List String
  | [], acc => [acc.reverse.asString]
  | c :: rest, acc =>
    if c = '\n' then acc.reverse.asString :: splitNewlinesGo rest []
    else splitNewlinesGo rest (c :: acc)

/-- Split on `\n` (every piece, including a final empty one). -/
def splitNewlines (content : String) : List String :=
  splitNewlinesGo content.toList []

/-- Rust `str::lines()`: split on `\n`, dropping a final empty piece left by a
trailing newline, and trimming a trailing `\r` from each line. -/
def strLines (content : String) : List String :=
  if content = "" then []
  else
    let parts := splitNewlines content
    let parts := if content.toList.getLast? = some '\n' then parts.dropLast else parts
    parts.map (fun l => if l.toList.getLast? = some '\r' then (l.toList.dropLast).asString else l)

/-- The `get_skip_marker_at_line` from `skip.rs`: consult the given 1-based
line, then the line above. -/
def getSkipMarkerAtLine (content : String) (line : Nat) : Option SkipMarker :=
  let lines := strLines content
  let fromCurrent :=
    if line > 0 ∧ line ≤ lines.length then
      parseSkipComment (lines.getD (line - 1) "")
    else none
  match fromCurrent with
  | some m => some m
  | none =>
    if line > 1 then parseSkipComment (lines.getD (line - 2) "")
    else none

/-- The `has_skip_marker_for_rule_at_line` from `skip.rs`. -/
def hasSkipMarkerForRuleAtLine (content : String) (line : Nat) (rule : String) : Bool :=
  match getSkipMarkerAtLine content line with
  | some .all => true
  | some (.rule r) => r = rule
  | none => false

/-! ## The assert-mode report (`run_assert` in `mod.rs`, lines 155-164)

The tail of `run_assert` after all violations are collected: the exit
code, the lines printed to standard output, and the lines printed to the
error stream (one list entry per `println!`/`eprintln!` call; the header
carries its explicit extra `\n`). -/

/-- The per-violation error line of `run_assert`:
`  [{rule}] {file}:{line}:{column}: {message}` (two-space indent). -/
def violationLine (v : Violation) : String :=
  "  [" ++ v.rule ++ "] " ++ v.file ++ ":" ++ toString v.line ++ ":" ++ toString v.column ++ ": " ++ v.message

/-- The reporting tail of `run_assert` in `mod.rs`: exit code, stdout
lines, stderr lines. -/
def runAssertReport (violations : List Violation) : Nat × List String × List String :=
  if violations.isEmpty then
    (0, ["codestyle: all checks passed"], [])
  else
    (1, [],
      ("codestyle: found " ++ toString violations.length ++ " violation(s):\n")
        :: violations.map violationLine)

/-! ## The format converger (`format_file_iteratively` in `mod.rs`)

The per-file loop: parse, find the first fixable violation across the
enabled rules in priority order, apply exactly that fix, repeat; when no
fixable violation remains, collect the unfixable ones in a final pass.
The enabled rules' combined check on one content snapshot is abstracted
as a function `rules : String → Option (List Violation)` (`none` models
parse failure, the violations appear in rule-priority order), and
`fs::write` is modelled as always succeeding. -/

/-- The first-fixable-violation search of `format_file_iteratively`
(the chain of `if first_fix.is_none() …` blocks, lines 250-368). -/
def firstFixable : List Violation → Option (Violation × Fix)
  | [] => none
  | v :: rest =>
    match v.fix with
    | some f => some (v, f)
    | none => firstFixable rest

/-- The `collect_unfixable` from `mod.rs`: violations without a fix. -/
def collectUnfixable (vs : List Violation) : List Violation :=
  vs.filter (fun v => v.fix.isNone)

/-- Result of `format_file_iteratively` for one file: the fixed count,
the unfixable violations, and the file's final content (an explicit
fuel-exhaustion constructor stands in for non-termination). -/
inductive FormatResult where
  | done (fixedCount : Nat) (unfixable : List Violation) (finalContent : String)
  | outOfFuel (content : String)
deriving Repr, DecidableEq

/-- The `format_file_iteratively` from `mod.rs` (lines 239-390): the
fuelled loop.  On parse failure the loop `break`s with no unfixable
list; with no fixable violation it returns the unfixable collection;
with a fixable violation it re-validates bounds
(`fix.start_byte <= len && fix.end_byte <= len`), splices and recurses
on success, and `break`s — reporting nothing — on failure. -/
def formatFileIteratively (rules : String → Option (List Violation)) : Nat → String → Nat → FormatResult
  | 0, content, _ => .outOfFuel content
  | fuel + 1, content, fixedCount =>
    match rules content with
    | none => .done fixedCount [] content
    | some vs =>
      match firstFixable vs with
      | none => .done fixedCount (collectUnfixable vs) content
      | some (_, fix) =>
        if fix.start_byte ≤ content.length ∧ fix.end_byte ≤ content.length then
          formatFileIteratively rules fuel (replaceRange content fix.start_byte fix.end_byte fix.replacement) (fixedCount + 1)
        else
          .done fixedCount [] content

/-! ## Rule `join-split-impls`: fix construction
(`src/rust_checks/join_split_impls.rs`, lines 84-146) -/

/-- The `ImplBlockInfo` from `join_split_impls.rs`. -/
structure ImplBlockInfo where
  start_line : Nat
  start_byte : Nat
  end_byte : Nat
  brace_open_byte : Nat
  items_text : String
deriving Repr, DecidableEq

/-- The `strip_blank_lines` from `join_split_impls.rs`. -/
def stripBlankLines (text : String) : String :=
  let lines := strLines text
  let start := (lines.findIdx? (fun l => rustTrim l ≠ "")).getD 0
  let stop :=
    match (lines.reverse.findIdx? (fun l => rustTrim l ≠ "")) with
    | some j => lines.length - j
    | none => lines.length
  String.intercalate "\n" ((lines.take stop).drop start)

/-- The `between_sections` collection (lines 105-116): trimmed nonempty
text between consecutive impl blocks. -/
def betweenSectionsOf (content : String) (blocks : List ImplBlockInfo) : List String :=
  (blocks.zip blocks.tail).filterMap (fun pr =>
    let between := rustTrim (sliceStr content pr.1.end_byte pr.2.start_byte)
    if between ≠ "" then some between else none)

/-- The fix construction of `check` in `join_split_impls.rs` (lines
84-146), for one type's impl-block group (`none` when fewer than two
blocks, matching the `< 2` guard). -/
def joinSplitFix (content : String) (blocks : List ImplBlockInfo) : Option Fix :=
  match blocks with
  | first :: _ :: _ =>
    let last := (blocks.getLast?).getD first
    let allItemsParts := (blocks.map (fun b => stripBlankLines b.items_text)).filter (fun s => s ≠ "")
    let betweenSections := betweenSectionsOf content blocks
    let implHeader := sliceStr content first.start_byte (first.brace_open_byte + 1)
    let body := String.intercalate "\n" allItemsParts
    let replacement := implHeader ++ "\n" ++ body ++ "\n" ++ "\x7d" ++
      (if betweenSections ≠ [] then "\n\n" ++ String.intercalate "\n\n" betweenSections else "")
    some { start_byte := first.start_byte, end_byte := last.end_byte, replacement := replacement }
  | _ => none

/-! ## Concrete fixtures

Source files, token streams, and positions used by the theorems below.
Spans are the ones `syn`/`proc_macro2` report for these texts (1-based
lines, 0-based columns, end positions one past the last character). -/

/-- A file in which unrelated code (`fn unrelated`) lies strictly between
`struct Foo` (lines 1-3) and `impl Foo` (lines 7-9) — the fixture of the
repository test
`tests/rust/impl_follows_type.rs::no_autofix_when_other_code_in_between`. -/
def c1_content : String :=
  "struct Foo \x7b\n    x: i32,\n\x7d\n\nfn unrelated() \x7b\x7d\n\nimpl Foo \x7b\n    fn new() -> Self \x7b Self \x7b x: 0 \x7d \x7d\n\x7d\n"

/-- The `struct Foo` ends at line 3, column 1 (as in the source's first pass,
with its `unwrap_or(0)`). -/
def c1_typeDef : TypeDefInfo :=
  { end_line := 3, end_byte := (spanPositionToByte c1_content 3 1).getD 0 }

/-- The `impl Foo` spans lines 7-9. -/
def c1_implBlock : ImplBlockPos :=
  { start_line := 7
    start_byte := (spanPositionToByte c1_content 7 0).getD 0
    end_byte := (spanPositionToByte c1_content 9 1).getD 0 }

/-- An out-of-bounds fix (its range exceeds any content below). -/
def c2_fix : Fix := { start_byte := 100, end_byte := 200, replacement := "x" }

/-- A violation carrying the out-of-bounds fix. -/
def c2_violation : Violation :=
  { rule := "embed-simple-vars", file := "src/main.rs", line := 1, column := 0,
    message := "stale span", fix := some c2_fix }

/-- A rule set that always reports `c2_violation` (its fix fails bounds
re-validation against `c2_content`). -/
def c2_rules : String → Option (List Violation) := fun _ => some [c2_violation]

/-- The file content `c2_rules` is run against (length 12). -/
def c2_content : String := "fn main() \x7b\x7d"

/-- A sample violation for exercising the assert-mode report. -/
def c3_violation : Violation :=
  { rule := "no-chrono", file := "src/lib.rs", line := 3, column := 5,
    message := "use jiff instead of chrono", fix := none }

/-- The file of spec scenario (a):
`fn test()\x7b let name="world"; println!("Hello, \x7b\x7d", name); \x7d`. -/
def c4_content : String :=
  "fn test()\x7b let name=\"world\"; println!(\"Hello, \x7b\x7d\", name); \x7d"

/-- The token stream of the `println!` invocation in `c4_content`:
the format-string literal, a comma, and the identifier `name`, at their
positions in the file. -/
def c4_tokens : List Tok :=
  [ .lit "\"Hello, \x7b\x7d\"" ⟨1, 38, 1, 49⟩,
    .punct ',' ⟨1, 49, 1, 50⟩,
    .ident "name" ⟨1, 51, 1, 55⟩ ]

/-- A file with one simple and one complex format argument:
`fn f()\x7b println!("a: \x7b\x7d, b: \x7b\x7d", x.field, y); \x7d`. -/
def c5_content : String :=
  "fn f()\x7b println!(\"a: \x7b\x7d, b: \x7b\x7d\", x.field, y); \x7d"

/-- The token stream of the `println!` invocation in `c5_content`. -/
def c5_tokens : List Tok :=
  [ .lit "\"a: \x7b\x7d, b: \x7b\x7d\"" ⟨1, 17, 1, 31⟩,
    .punct ',' ⟨1, 31, 1, 32⟩,
    .ident "x" ⟨1, 33, 1, 34⟩,
    .punct '.' ⟨1, 34, 1, 35⟩,
    .ident "field" ⟨1, 35, 1, 40⟩,
    .punct ',' ⟨1, 40, 1, 41⟩,
    .ident "y" ⟨1, 42, 1, 43⟩ ]

/-- The fix the embed-simple-vars analysis attaches on `c5_tokens`. -/
def c5_fixVal : Fix :=
  { start_byte := 17, end_byte := 43,
    replacement := "\"a: \x7b\x7d, b: \x7by\x7d\", x.field" }

/-- The violation the embed-simple-vars analysis emits on `c5_tokens`
(the simple argument `y` embeds; `x.field` stays a trailing argument). -/
def c5_violation : Violation :=
  { rule := "embed-simple-vars", file := "src/main.rs", line := 1, column := 42,
    message := "variable `y` should be embedded in format string: use `\x7by\x7d` instead of `\x7b\x7d, y`",
    fix := some c5_fixVal }

/-- A `println!` macro invocation (as reached by both `visit_expr_macro`
and `visit_macro`). -/
def c6_macroInv : MacroInv :=
  { name := "println", tokens := c4_tokens, span := ⟨1, 29, 1, 57⟩ }

/-- A `return Err(eyre!("boom"))` expression at line 1, column 11 of
`c6_retContent`. -/
def c6_retExpr : ReturnExprM :=
  { expr := some (.call "Err" [.emac "eyre" "\"boom\""])
    span := ⟨1, 11, 1, 35⟩ }

/-- The file containing `c6_retExpr`. -/
def c6_retContent : String :=
  "fn f() \x7b   return Err(eyre!(\"boom\")) \x7d"

/-- Content whose line 1 is a bracketed skip-all marker. -/
def c7_allContent : String := "// #[codestyle::skip]\nfn foo() \x7b\x7d"

/-- Content whose line 1 is an at-sign skip-all marker with leading
whitespace. -/
def c7_allAtContent : String := "  //@codestyle::skip\nfn foo() \x7b\x7d"

/-- Content whose line 1 is a rule-specific marker for `pub-first`. -/
def c7_namedContent : String := "//#[codestyle::skip(pub-first)]\nfn foo() \x7b\x7d"

/-- Content whose line 1 carries trailing content after the recognized
prefix (not a marker). -/
def c7_trailContent : String := "// @codestyle::skip stuff\nfn foo() \x7b\x7d"

/-- A rule set with nothing to report (for the idempotence witness). -/
def c8_rules : String → Option (List Violation) := fun _ => some []

/-- A one-use-item list containing a glob import (`use eyre::*;`). -/
def c10_uses : List (UseTree × Nat) := [(UseTree.path "eyre" UseTree.glob, 1)]

/-- The file the `c10_uses` import list comes from. -/
def c10_content : String := "use eyre::*;\nfn f() \x7b   return Err(eyre!(\"boom\")) \x7d"

/-- A scan state with `bail` already imported (what scanning a glob
use-import produces). -/
def c10_scan : UseBailScan :=
  { errorCrate := some .eyre, bailImported := true,
    importInsertPos := some 12, importPfx := some "eyre" }

/-- The span of the `return Err(eyre!("boom"))` in `c10_content`
(line 2, columns 11-35). -/
def c10_retSpan : SpanLC := ⟨2, 11, 2, 35⟩

/-- Fixture blocks for the join-split-impls fix bounds: two impl blocks
of `impl Foo \x7b fn one() \x7b\x7d \x7d\nimpl Foo \x7b fn two() \x7b\x7d \x7d`. -/
def c9_joinContent : String := "impl Foo \x7b fn one() \x7b\x7d \x7d\nimpl Foo \x7b fn two() \x7b\x7d \x7d"

/-- The two `ImplBlockInfo`s of `c9_joinContent`. -/
def c9_joinBlocks : List ImplBlockInfo :=
  [ { start_line := 1, start_byte := 0, end_byte := 24, brace_open_byte := 9, items_text := " fn one() \x7b\x7d " },
    { start_line := 2, start_byte := 25, end_byte := 49, brace_open_byte := 34, items_text := " fn two() \x7b\x7d " } ]

/-! ## Theorems -/

/-- C1: the claim states that when unrelated (non-blank) code lies
strictly between a type definition and its inherent impl block, the
impl-follows-type rule reports a violation whose `Fix` is absent (manual
fix only).  Evaluating the embedded rule on such a file (`struct Foo`,
then `fn unrelated`, then `impl Foo`) shows the code instead attaches a
present `Fix` that reorders the impl block around the intervening code —
contradicting the repository's own tests
(`tests/rust/impl_follows_type.rs`, `no_autofix_when_other_code_in_between`,
whose snapshot requires the file to stay unchanged). -/
theorem c1_interleaved_code_fix_is_present :
    (checkImplAgainstType c1_content "src/main.rs" "Foo" c1_typeDef c1_implBlock 0).bind Violation.fix =
      some { start_byte := 26, end_byte := 98,
             replacement := "\nimpl Foo \x7b\n    fn new() -> Self \x7b Self \x7b x: 0 \x7d \x7d\n\x7d\n\nfn unrelated() \x7b\x7d" } := by
  rfl

/-- C2 (counterexample): the claim states that a selected fix failing
bounds re-validation is skipped and the violation is counted/reported as
unfixable.  On a rule set whose only violation carries an out-of-bounds
fix, `format_file_iteratively` terminates with an *empty* unfixable list
(the `break` branch reports nothing), though the buffer is indeed left
unmodified. -/
theorem c2_out_of_bounds_fix_not_reported :
    c2_rules c2_content = some [c2_violation] ∧
    c2_violation.fix = some c2_fix ∧
    ¬ (c2_fix.start_byte ≤ c2_content.length ∧ c2_fix.end_byte ≤ c2_content.length) ∧
    formatFileIteratively c2_rules 5 c2_content 0 = .done 0 [] c2_content := by
  refine ⟨rfl, rfl, by decide, rfl⟩

/-- C2 (amended): in format mode, when the first selected fix fails
bounds re-validation against the current content
(`start_byte ≤ len ∧ end_byte ≤ len` is false), the fix is skipped and
the buffer left unmodified, but the per-file loop breaks immediately:
it returns the count of fixes applied so far and an *empty* unfixable
list — the violation is not reported (other files are unaffected, since
the loop is per-file). -/
theorem c2_out_of_bounds_fix_skips_and_breaks
    (rules : String → Option (List Violation)) (fuel : Nat) (content : String) (count : Nat)
    (vs : List Violation) (v : Violation) (f : Fix)
    (hrules : rules content = some vs)
    (hfirst : firstFixable vs = some (v, f))
    (hoob : ¬ (f.start_byte ≤ content.length ∧ f.end_byte ≤ content.length)) :
    formatFileIteratively rules (fuel + 1) content count = .done count [] content := by
  unfold formatFileIteratively
  rw [hrules]
  simp only []
  rw [hfirst]
  simp [hoob]

/-- C2 (amended, witness): the amended behavior at the concrete
out-of-bounds fixture. -/
theorem c2_out_of_bounds_witness :
    formatFileIteratively c2_rules (4 + 1) c2_content 0 = .done 0 [] c2_content :=
  c2_out_of_bounds_fix_skips_and_breaks c2_rules 4 c2_content 0 [c2_violation] c2_violation c2_fix
    rfl rfl (by decide)

/-- C3 (counterexample): the claim states `run_assert` produces no output
when no violations are found.  On an empty violation list the report
prints a success line to standard output (`codestyle: all checks
passed`), so the output is not empty. -/
theorem c3_clean_run_prints_to_stdout :
    runAssertReport [] = (0, ["codestyle: all checks passed"], []) ∧
    (runAssertReport []).2.1 ≠ [] := by
  refine ⟨rfl, by decide⟩

/-- C3 (amended): `run_assert` returns exit code 0 and prints one
success line to standard output when no violations are found; otherwise
it returns exit code 1, prints nothing to standard output, and writes to
the error stream a count header followed by one line per violation of
the form `  [rule] path:line:col: message` (two-space indented). -/
theorem c3_assert_report
    (vs : List Violation) :
    (vs = [] → runAssertReport vs = (0, ["codestyle: all checks passed"], [])) ∧
    (vs ≠ [] →
      (runAssertReport vs).1 = 1 ∧
      (runAssertReport vs).2.1 = [] ∧
      (runAssertReport vs).2.2 =
        ("codestyle: found " ++ toString vs.length ++ " violation(s):\n") :: vs.map violationLine) := by
  constructor
  · intro h
    subst h
    rfl
  · intro h
    have hne : vs.isEmpty = false := by
      cases vs with
      | nil => exact absurd rfl h
      | cons a l => rfl
    simp [runAssertReport, hne]

/-- C3 (amended, witness): the amended report shape at a concrete
violation list. -/
theorem c3_assert_report_witness :
    (runAssertReport [c3_violation]).1 = 1 ∧
    (runAssertReport [c3_violation]).2.1 = [] ∧
    (runAssertReport [c3_violation]).2.2 =
      ("codestyle: found " ++ toString [c3_violation].length ++ " violation(s):\n")
        :: [c3_violation].map violationLine :=
  (c3_assert_report [c3_violation]).2 (by simp)

/-- C4: on `fn test()\x7b let name="world"; println!("Hello, \x7b\x7d", name); \x7d`
the embed-simple-vars analysis yields exactly one violation (at the
`name` argument inside the `println!` call), and applying its fix to the
file content rewrites the call to `println!("Hello, \x7bname\x7d");`. -/
theorem c4_hello_name_scenario :
    (analyzeFormatMacroTokens "src/main.rs" c4_content c4_tokens).length = 1 ∧
    ((analyzeFormatMacroTokens "src/main.rs" c4_content c4_tokens).head?.bind Violation.fix).map
        (fun f => replaceRange c4_content f.start_byte f.end_byte f.replacement) =
      some "fn test()\x7b let name=\"world\"; println!(\"Hello, \x7bname\x7d\"); \x7d" := by
  exact ⟨rfl, rfl⟩

/-- C7: the suppression-marker parser recognizes, after optional leading
whitespace and `//`, the bracketed-attribute and at-sign
`codestyle::skip` forms; with no parenthesized rule name the marker
suppresses every rule at that position; with a parenthesized rule name
`should_skip` holds exactly for the named rule and returns false for any
other; a line with other trailing content after the recognized prefix is
not a marker and suppresses nothing (silently — the parser is total and
never errors). -/
theorem c7_skip_marker_parsing (r : String) :
    (parseSkipComment "//#[codestyle::skip]" = some .all) ∧
    (parseSkipComment "// @codestyle::skip" = some .all) ∧
    hasSkipMarkerForRuleAtLine c7_allContent 2 r = true ∧
    hasSkipMarkerForRuleAtLine c7_allAtContent 2 r = true ∧
    (r = "pub-first" → hasSkipMarkerForRuleAtLine c7_namedContent 2 r = true) ∧
    (r ≠ "pub-first" → hasSkipMarkerForRuleAtLine c7_namedContent 2 r = false) ∧
    (parseSkipComment "// #[codestyle::skip blah]" = none) ∧
    (parseSkipComment "// @codestyle::skip stuff" = none) ∧
    hasSkipMarkerForRuleAtLine c7_trailContent 2 r = false := by
  refine ⟨rfl, rfl, rfl, rfl, ?_, ?_, rfl, rfl, rfl⟩
  · intro h
    subst h
    rfl
  · intro h
    show decide ("pub-first" = r) = false
    exact decide_eq_false (fun e => h e.symm)

/-- C7 (witness): the rule-specific marker at concrete rule names. -/
theorem c7_skip_marker_witness :
    hasSkipMarkerForRuleAtLine c7_namedContent 2 "pub-first" = true ∧
    hasSkipMarkerForRuleAtLine c7_namedContent 2 "no-chrono" = false :=
  ⟨(c7_skip_marker_parsing "pub-first").2.2.2.2.1 rfl,
   (c7_skip_marker_parsing "no-chrono").2.2.2.2.2.1 (by decide)⟩

/-- C8: format mode is idempotent per file — whenever one run of
`format_file_iteratively` completes (is not cut off by fuel), running it
again on the resulting content applies zero further fixes, reports the
same unfixable violations, and leaves the content unchanged.  (The
proof needs no extra assumption on the rules' fixes: every completed
run ends in a state — parse failure, no fixable violation, or an
out-of-bounds first fix — that reproduces itself.) -/
theorem c8_format_idempotent
    (rules : String → Option (List Violation)) (fuel : Nat) (content : String) (count : Nat)
    (n : Nat) (unfix : List Violation) (final : String)
    (h : formatFileIteratively rules fuel content count = .done n unfix final) (fuel2 : Nat) :
    formatFileIteratively rules (fuel2 + 1) final 0 = .done 0 unfix final := by
  induction fuel generalizing content count with
  | zero => simp [formatFileIteratively] at h
  | succ fuel ih =>
    rw [formatFileIteratively] at h
    cases hr : rules content with
    | none =>
      rw [hr] at h
      simp only [] at h
      injection h with h1 h2 h3
      subst h2
      subst h3
      simp [formatFileIteratively, hr]
    | some vs =>
      rw [hr] at h
      simp only [] at h
      cases hf : firstFixable vs with
      | none =>
        rw [hf] at h
        simp only [] at h
        injection h with h1 h2 h3
        subst h2
        subst h3
        simp [formatFileIteratively, hr, hf]
      | some vf =>
        rw [hf] at h
        simp only [] at h
        by_cases hb : vf.2.start_byte ≤ content.length ∧ vf.2.end_byte ≤ content.length
        · rw [if_pos hb] at h
          exact ih _ _ h
        · rw [if_neg hb] at h
          injection h with h1 h2 h3
          subst h2
          subst h3
          rw [formatFileIteratively, hr]
          simp only []
          rw [hf]
          simp only []
          rw [if_neg hb]

/-- C8 (witness): a completed run on a clean file reproduces itself. -/
theorem c8_format_idempotent_witness :
    formatFileIteratively c8_rules (0 + 1) "fn g() \x7b\x7d" 0 = .done 0 [] "fn g() \x7b\x7d" :=
  c8_format_idempotent c8_rules 1 "fn g() \x7b\x7d" 0 0 [] "fn g() \x7b\x7d" rfl 0

/-! ### List bookkeeping lemmas for the embed-simple-vars argument flow -/

/-- The `get?` through `zip`. -/
theorem zipGet? {α β : Type _} :
    ∀ (l1 : List α) (l2 : List β) (i : Nat),
      (l1.zip l2).get? i = (l1.get? i).bind (fun a => (l2.get? i).map (fun b => (a, b)))
  | [], l2, i => by simp
  | a :: l1, [], i => by simp
  | a :: l1, b :: l2, 0 => by simp [List.zip_cons_cons]
  | a :: l1, b :: l2, i + 1 => by
    simpa [List.zip_cons_cons] using zipGet? l1 l2 i

/-- Membership in `enumFrom` determines the underlying `get?`. -/
theorem enumFrom_mem_get? {α : Type _} :
    ∀ (l : List α) (n j : Nat) (a : α), (j, a) ∈ l.enumFrom n → n ≤ j ∧ l.get? (j - n) = some a
  | [], n, j, a, h => by simp [List.enumFrom] at h
  | b :: l, n, j, a, h => by
    rw [List.enumFrom_cons] at h
    rcases List.mem_cons.mp h with heq | htail
    · obtain ⟨h1, h2⟩ := Prod.mk.injEq .. ▸ heq
      subst h1
      subst h2
      simp
    · have h2 := enumFrom_mem_get? l (n + 1) j a htail
      refine ⟨by omega, ?_⟩
      have hj : j - n = (j - (n + 1)) + 1 := by omega
      rw [hj]
      simpa using h2.2

/-- The `get?` produces a member of `enumFrom`. -/
theorem get?_mem_enumFrom {α : Type _} :
    ∀ (l : List α) (n j : Nat) (a : α), l.get? j = some a → (n + j, a) ∈ l.enumFrom n
  | [], n, j, a, h => by simp at h
  | b :: l, n, 0, a, h => by
    rw [List.enumFrom_cons]
    simp only [List.get?] at h
    injection h with h
    subst h
    simp
  | b :: l, n, j + 1, a, h => by
    rw [List.enumFrom_cons]
    refine List.mem_cons_of_mem _ ?_
    have := get?_mem_enumFrom l (n + 1) j a (by simpa using h)
    rwa [show n + 1 + j = n + (j + 1) by omega] at this

/-- Rewriting the function of an indexed `filterMap` over `enumFrom`
into an index-free `filterMap`, given pointwise agreement at the list's
own entries. -/
theorem filterMap_enumFrom_congr {α β : Type _} :
    ∀ (l : List α) (n : Nat) (f : Nat → α → Option β) (g : α → Option β),
      (∀ i a, l.get? i = some a → f (n + i) a = g a) →
      (l.enumFrom n).filterMap (fun p => f p.1 p.2) = l.filterMap g
  | [], n, f, g, _ => rfl
  | a :: l, n, f, g, H => by
    have h0 : f n a = g a := by
      have := H 0 a rfl
      rwa [Nat.add_zero] at this
    have ih := filterMap_enumFrom_congr l (n + 1) f g (fun i a' h => by
      have := H (i + 1) a' (by simpa using h)
      rwa [show n + (i + 1) = n + 1 + i by omega] at this)
    rw [List.enumFrom_cons, List.filterMap_cons, List.filterMap_cons]
    have hba : f ((n, a) : Nat × α).1 ((n, a) : Nat × α).2 = g a := h0
    rw [hba, ih]

/-- The `simple_indices` membership test agrees with simplicity of the
argument at that index (when placeholder and argument counts match). -/
theorem simpleIndices_contains_eq (ph : List Placeholder) (args : List (String × SpanLC))
    (hlen : ph.length = args.length) (i : Nat) (a : String × SpanLC)
    (hget : args.get? i = some a) :
    (simpleIndicesOf ph args).contains i = isSimpleIdentifier a.1 := by
  rw [Bool.eq_iff_iff]
  constructor
  · intro hc
    have hmem : i ∈ simpleIndicesOf ph args := List.elem_iff.mp hc
    unfold simpleIndicesOf at hmem
    rw [List.mem_filterMap] at hmem
    obtain ⟨ia, hia, hif⟩ := hmem
    by_cases hP : isSimpleIdentifier ia.2.2.1 = true
    · rw [if_pos hP] at hif
      injection hif with hidx
      subst hidx
      have hz := (enumFrom_mem_get? (ph.zip args) 0 ia.1 ia.2 hia).2
      rw [Nat.sub_zero, zipGet?, hget] at hz
      cases hp : ph.get? ia.1 with
      | none => rw [hp] at hz; simp at hz
      | some p =>
        rw [hp] at hz
        have hred : ((some p).bind fun x => (some a).map fun b => (x, b)) =
            some ((p, a) : Placeholder × (String × SpanLC)) := rfl
        rw [hred] at hz
        injection hz with hz
        rw [← hz] at hP
        simpa using hP
    · rw [if_neg hP] at hif
      cases hif
  · intro hP
    obtain ⟨hi, _⟩ := List.get?_eq_some.mp hget
    have hip : i < ph.length := by omega
    obtain ⟨p, hp⟩ : ∃ p, ph.get? i = some p := by
      cases hq : ph.get? i with
      | none => rw [List.get?_eq_none] at hq; omega
      | some p => exact ⟨p, rfl⟩
    have hz : (ph.zip args).get? i = some (p, a) := by
      rw [zipGet?, hp, hget]
      rfl
    have hmem := get?_mem_enumFrom (ph.zip args) 0 i (p, a) hz
    rw [Nat.zero_add] at hmem
    apply List.elem_iff.mpr
    unfold simpleIndicesOf
    rw [List.mem_filterMap]
    exact ⟨(i, (p, a)), hmem, by simp [hP]⟩

/-- De-indexing the non-simple filter. -/
theorem filterMap_if_simple (args : List (String × SpanLC)) :
    args.filterMap (fun a => if isSimpleIdentifier a.1 then none else some a.1) =
      (args.map Prod.fst).filter (fun s => !(isSimpleIdentifier s)) := by
  induction args with
  | nil => rfl
  | cons a l ih =>
    by_cases hP : isSimpleIdentifier a.1 = true <;>
      simp [List.filterMap_cons, List.filter_cons, hP, ih]

/-- The `remaining_args` list is exactly the non-simple arguments, in
their original order (when placeholder and argument counts match):
nothing is dropped, duplicated, or reordered. -/
theorem remainingArgs_eq_filter (ph : List Placeholder) (args : List (String × SpanLC))
    (hlen : ph.length = args.length) :
    remainingArgsOf ph args = (args.map Prod.fst).filter (fun s => !(isSimpleIdentifier s)) := by
  have key := filterMap_enumFrom_congr args 0
    (fun i a => if (simpleIndicesOf ph args).contains i then none else some a.1)
    (fun a => if isSimpleIdentifier a.1 then none else some a.1)
    (fun i a h => by
      have hc := simpleIndices_contains_eq ph args hlen i a h
      show (if (simpleIndicesOf ph args).contains (0 + i) = true then none else some a.1) =
        (if isSimpleIdentifier a.1 = true then none else some a.1)
      rw [Nat.zero_add, hc])
  exact key.trans (filterMap_if_simple args)

/-- Every pair the analysis embeds has a simple (bare-identifier)
argument. -/
theorem simpleArgs_all_simple (ph : List Placeholder) (args : List (String × SpanLC)) :
    ∀ psa ∈ simpleArgsOf ph args, isSimpleIdentifier psa.2.1 = true := by
  intro psa h
  unfold simpleArgsOf at h
  rw [List.mem_filterMap] at h
  obtain ⟨pa, hmem, heq⟩ := h
  by_cases hP : isSimpleIdentifier pa.2.1 = true
  · rw [if_pos hP] at heq
    injection heq with heq
    subst heq
    exact hP
  · rw [if_neg hP] at heq
    cases heq

/-- A successful `create_full_macro_fix` copies its first argument into
the fix's replacement text. -/
theorem createFullMacroFix_replacement (newFmt : String) (fmtSpan : SpanLC)
    (lastArgSpan : Option SpanLC) (content : String) (f : Fix)
    (h : createFullMacroFix newFmt fmtSpan lastArgSpan content = some f) :
    f.replacement = newFmt := by
  unfold createFullMacroFix at h
  cases hx : lastArgSpan with
  | none => rw [hx] at h; simp at h
  | some lastSp =>
    rw [hx] at h
    simp only [] at h
    cases hy : spanPositionToByte content fmtSpan.startLine fmtSpan.startCol with
    | none => rw [hy] at h; simp at h
    | some fmtStart =>
      rw [hy] at h
      simp only [] at h
      cases hz : spanPositionToByte content lastSp.endLine lastSp.endCol with
      | none => rw [hz] at h; simp at h
      | some lastArgEnd =>
        rw [hz] at h
        simp only [] at h
        split at h
        · cases h
        · injection h with h1
          rw [← h1]

/-- A produced fix's replacement is the rebuilt format string, followed
(when complex arguments remain) by exactly the remaining arguments. -/
theorem mkMacroFix_replacement (content fmtContent : String) (fmtSpan : SpanLC)
    (ph : List Placeholder) (args : List (String × SpanLC)) (f : Fix)
    (h : mkMacroFix content fmtContent fmtSpan ph args = some f) :
    f.replacement =
      if remainingArgsOf ph args = [] then buildNewFmt fmtContent (simpleArgsOf ph args)
      else buildNewFmt fmtContent (simpleArgsOf ph args) ++ ", " ++
        String.intercalate ", " (remainingArgsOf ph args) := by
  unfold mkMacroFix at h
  by_cases hr : remainingArgsOf ph args = []
  · rw [if_pos hr] at h
    rw [if_pos hr]
    exact createFullMacroFix_replacement _ _ _ _ _ h
  · rw [if_neg hr] at h
    rw [if_neg hr]
    exact createFullMacroFix_replacement _ _ _ _ _ h

/-- C5: whenever the embed-simple-vars analysis produces a fix, the
fix's replacement is the rebuilt format-string literal followed by the
complex (non-bare-identifier) trailing arguments — each exactly once, in
the arguments' original relative order (they are precisely the
order-preserving filter of the collected arguments), nothing dropped or
duplicated; only simple (bare-identifier) arguments are ever embedded
into placeholders, and a bare-field argument such as `x.field` is not a
simple identifier, hence never embedded. -/
theorem c5_complex_args_kept_once_in_order
    (pathStr content : String) (tokens : List Tok) (v : Violation) (f : Fix)
    (hv : v ∈ analyzeFormatMacroTokens pathStr content tokens)
    (hf : v.fix = some f) :
    ∃ fmtIdx fmtContent fmtSpan placeholders args,
      findFormatString tokens 0 = some (fmtIdx, fmtContent, fmtSpan) ∧
      placeholders = findEmbeddablePlaceholders fmtContent ∧
      args = collectArgsGo tokens (fmtIdx + 1) (tokens.length + 1) [] ∧
      remainingArgsOf placeholders args =
        (args.map Prod.fst).filter (fun s => !(isSimpleIdentifier s)) ∧
      f.replacement =
        (if remainingArgsOf placeholders args = [] then
          buildNewFmt fmtContent (simpleArgsOf placeholders args)
         else
          buildNewFmt fmtContent (simpleArgsOf placeholders args) ++ ", " ++
            String.intercalate ", " (remainingArgsOf placeholders args)) ∧
      (∀ psa ∈ simpleArgsOf placeholders args, isSimpleIdentifier psa.2.1 = true) ∧
      isSimpleIdentifier "x.field" = false := by
  unfold analyzeFormatMacroTokens at hv
  cases hfs : findFormatString tokens 0 with
  | none =>
    rw [hfs] at hv
    simp at hv
  | some trip =>
    obtain ⟨fmtIdx, fmtContent, fmtSpan⟩ := trip
    rw [hfs] at hv
    simp only [] at hv
    by_cases h0 : (findEmbeddablePlaceholders fmtContent).length = 0
    · rw [if_pos h0] at hv
      simp at hv
    · rw [if_neg h0] at hv
      unfold analyzeWithArgs at hv
      by_cases hne : (findEmbeddablePlaceholders fmtContent).length ≠
          (collectArgsGo tokens (fmtIdx + 1) (tokens.length + 1) []).length
      · rw [if_pos hne] at hv
        simp at hv
      · rw [if_neg hne] at hv
        by_cases hs : simpleArgsOf (findEmbeddablePlaceholders fmtContent)
            (collectArgsGo tokens (fmtIdx + 1) (tokens.length + 1) []) = []
        · rw [if_pos hs] at hv
          simp at hv
        · rw [if_neg hs] at hv
          rw [List.mem_map] at hv
          obtain ⟨psa, hpsa, hveq⟩ := hv
          have hvfix : v.fix = mkMacroFix content fmtContent fmtSpan
              (findEmbeddablePlaceholders fmtContent)
              (collectArgsGo tokens (fmtIdx + 1) (tokens.length + 1) []) := by
            rw [← hveq]
            rfl
          rw [hvfix] at hf
          have hlen := not_ne_iff.mp hne
          exact ⟨fmtIdx, fmtContent, fmtSpan, _, _, rfl, rfl, rfl,
            remainingArgs_eq_filter _ _ hlen,
            mkMacroFix_replacement _ _ _ _ _ _ hf,
            simpleArgs_all_simple _ _, by decide⟩

/-- C5 (witness): the property at the concrete invocation
`println!("a: \x7b\x7d, b: \x7b\x7d", x.field, y)`. -/
theorem c5_complex_args_witness :
    c5_violation ∈ analyzeFormatMacroTokens "src/main.rs" c5_content c5_tokens ∧
    ∃ fmtIdx fmtContent fmtSpan placeholders args,
      findFormatString c5_tokens 0 = some (fmtIdx, fmtContent, fmtSpan) ∧
      placeholders = findEmbeddablePlaceholders fmtContent ∧
      args = collectArgsGo c5_tokens (fmtIdx + 1) (c5_tokens.length + 1) [] ∧
      remainingArgsOf placeholders args =
        (args.map Prod.fst).filter (fun s => !(isSimpleIdentifier s)) ∧
      c5_fixVal.replacement =
        (if remainingArgsOf placeholders args = [] then
          buildNewFmt fmtContent (simpleArgsOf placeholders args)
         else
          buildNewFmt fmtContent (simpleArgsOf placeholders args) ++ ", " ++
            String.intercalate ", " (remainingArgsOf placeholders args)) ∧
      (∀ psa ∈ simpleArgsOf placeholders args, isSimpleIdentifier psa.2.1 = true) ∧
      isSimpleIdentifier "x.field" = false :=
  ⟨by decide,
   c5_complex_args_kept_once_in_order "src/main.rs" c5_content c5_tokens c5_violation c5_fixVal
     (by decide) rfl⟩

/-! ### Deduplication of revisited constructs (C6 infrastructure) -/

/-- Folding over a list whose middle element leaves the accumulated
state unchanged is the fold without it. -/
theorem foldl_mid_noop {σ α : Type _} (step : σ → α → σ) (st : σ) (pre post : List α) (x : α)
    (h : step (pre.foldl step st) x = pre.foldl step st) :
    (pre ++ x :: post).foldl step st = (pre ++ post).foldl step st := by
  rw [List.foldl_append, List.foldl_append, List.foldl_cons, h]

/-- The `check_format_macro` preserves previously seen keys. -/
theorem fmtStep_seen_mono (pathStr content : String) (st : FmtVisitState) (m : MacroInv)
    (k : Nat × Nat) (h : k ∈ st.seen) : k ∈ (checkFormatMacroStep pathStr content st m).seen := by
  unfold checkFormatMacroStep
  by_cases hm : macroKey m ∈ st.seen
  · rw [if_pos hm]
    exact h
  · rw [if_neg hm]
    split <;> exact List.mem_cons_of_mem _ h

/-- The `check_format_macro` records the processed macro's key. -/
theorem fmtStep_adds_key (pathStr content : String) (st : FmtVisitState) (m : MacroInv) :
    macroKey m ∈ (checkFormatMacroStep pathStr content st m).seen := by
  unfold checkFormatMacroStep
  by_cases hm : macroKey m ∈ st.seen
  · rw [if_pos hm]
    exact hm
  · rw [if_neg hm]
    split <;> exact List.mem_cons_self _ _

/-- A macro whose span start was already seen is skipped outright. -/
theorem fmtStep_noop (pathStr content : String) (st : FmtVisitState) (m : MacroInv)
    (h : macroKey m ∈ st.seen) : checkFormatMacroStep pathStr content st m = st := by
  unfold checkFormatMacroStep
  rw [if_pos h]

/-- Seen keys survive the whole fold. -/
theorem fmtFold_seen_mono (pathStr content : String) :
    ∀ (ms : List MacroInv) (st : FmtVisitState) (k : Nat × Nat), k ∈ st.seen →
      k ∈ (ms.foldl (checkFormatMacroStep pathStr content) st).seen
  | [], _, _, h => h
  | a :: l, st, k, h =>
    fmtFold_seen_mono pathStr content l _ k (fmtStep_seen_mono pathStr content st a k h)

/-- After folding, every visited macro's key is in the seen set. -/
theorem fmtFold_seen (pathStr content : String) :
    ∀ (ms : List MacroInv) (st : FmtVisitState) (m' : MacroInv), m' ∈ ms →
      macroKey m' ∈ (ms.foldl (checkFormatMacroStep pathStr content) st).seen
  | [], _, _, h => absurd h (List.not_mem_nil _)
  | a :: l, st, m', h => by
    rcases List.mem_cons.mp h with heq | htail
    · subst heq
      exact fmtFold_seen_mono pathStr content l _ _ (fmtStep_adds_key pathStr content st m')
    · exact fmtFold_seen pathStr content l _ m' htail

/-- Does `check_return_err` reach its dedup/emit stage on `r`
(a `return Err(eyre!(…))` pattern)? -/
def returnErrFires (r : ReturnExprM) : Bool :=
  match r.expr with
  | some (.call funcLast args) =>
    if funcLast ≠ "Err" then false
    else
      match args.head? with
      | some (.emac macName _) => macName = "eyre"
      | _ => false
  | _ => false

/-- A return expression that does not match the pattern leaves the
visitor state untouched. -/
theorem bailStep_noop_of_not_fires (scan : UseBailScan) (pathStr content : String)
    (st : BailVisitState) (r : ReturnExprM) (h : returnErrFires r = false) :
    checkReturnErrStep scan pathStr content st r = st := by
  unfold returnErrFires at h
  unfold checkReturnErrStep
  cases hre : r.expr with
  | none => rfl
  | some e =>
    rw [hre] at h
    cases e with
    | call funcLast args =>
      simp only [] at h
      by_cases hfl : funcLast ≠ "Err"
      · simp only [if_pos hfl]
      · simp only [if_neg hfl]
        rw [if_neg hfl] at h
        cases hhd : args.head? with
        | none => rfl
        | some a0 =>
          rw [hhd] at h
          cases a0 with
          | call f2 a2 => rfl
          | emac macName toks =>
            simp only [] at h
            simp only []
            rw [if_pos (of_decide_eq_false h)]
          | other => rfl
    | emac p t => rfl
    | other => rfl

/-- A return expression whose key was already seen leaves the state
untouched. -/
theorem bailStep_noop_of_seen (scan : UseBailScan) (pathStr content : String)
    (st : BailVisitState) (r : ReturnExprM)
    (h : (r.span.startLine, r.span.startCol) ∈ st.seen) :
    checkReturnErrStep scan pathStr content st r = st := by
  unfold checkReturnErrStep
  cases hre : r.expr with
  | none => rfl
  | some e =>
    cases e with
    | call funcLast args =>
      by_cases hfl : funcLast ≠ "Err"
      · simp only [if_pos hfl]
      · simp only [if_neg hfl]
        cases hhd : args.head? with
        | none => rfl
        | some a0 =>
          cases a0 with
          | call f2 a2 => rfl
          | emac macName toks =>
            simp only []
            by_cases hmn : macName ≠ "eyre"
            · simp only [if_pos hmn]
            · simp only [if_neg hmn]
              rw [if_pos h]
          | other => rfl
    | emac p t => rfl
    | other => rfl

/-- The `check_return_err` preserves previously seen keys. -/
theorem bailStep_seen_mono (scan : UseBailScan) (pathStr content : String)
    (st : BailVisitState) (r : ReturnExprM) (k : Nat × Nat) (h : k ∈ st.seen) :
    k ∈ (checkReturnErrStep scan pathStr content st r).seen := by
  unfold checkReturnErrStep
  cases hre : r.expr with
  | none => exact h
  | some e =>
    cases e with
    | call funcLast args =>
      by_cases hfl : funcLast ≠ "Err"
      · simp only [if_pos hfl]
        exact h
      · simp only [if_neg hfl]
        cases hhd : args.head? with
        | none => exact h
        | some a0 =>
          cases a0 with
          | call f2 a2 => exact h
          | emac macName toks =>
            simp only []
            by_cases hmn : macName ≠ "eyre"
            · simp only [if_pos hmn]
              exact h
            · simp only [if_neg hmn]
              by_cases hk : (r.span.startLine, r.span.startCol) ∈ st.seen
              · rw [if_pos hk]
                exact h
              · rw [if_neg hk]
                exact List.mem_cons_of_mem _ h
          | other => exact h
    | emac p t => exact h
    | other => exact h

/-- A matching return expression's key is recorded. -/
theorem bailStep_adds_key (scan : UseBailScan) (pathStr content : String)
    (st : BailVisitState) (r : ReturnExprM) (h : returnErrFires r = true) :
    (r.span.startLine, r.span.startCol) ∈ (checkReturnErrStep scan pathStr content st r).seen := by
  unfold returnErrFires at h
  unfold checkReturnErrStep
  cases hre : r.expr with
  | none => rw [hre] at h; cases h
  | some e =>
    rw [hre] at h
    cases e with
    | call funcLast args =>
      simp only [] at h
      by_cases hfl : funcLast ≠ "Err"
      · rw [if_pos hfl] at h
        cases h
      · simp only [if_neg hfl]
        rw [if_neg hfl] at h
        cases hhd : args.head? with
        | none => rw [hhd] at h; cases h
        | some a0 =>
          rw [hhd] at h
          cases a0 with
          | call f2 a2 => simp only [] at h; cases h
          | emac macName toks =>
            simp only [] at h
            simp only []
            have hmn : ¬ macName ≠ "eyre" := by simpa using h
            simp only [if_neg hmn]
            by_cases hk : (r.span.startLine, r.span.startCol) ∈ st.seen
            · rw [if_pos hk]
              exact hk
            · rw [if_neg hk]
              exact List.mem_cons_self _ _
          | other => simp only [] at h; cases h
    | emac p t => simp only [] at h; cases h
    | other => simp only [] at h; cases h

/-- Seen keys survive the whole use-bail fold. -/
theorem bailFold_seen_mono (scan : UseBailScan) (pathStr content : String) :
    ∀ (rs : List ReturnExprM) (st : BailVisitState) (k : Nat × Nat), k ∈ st.seen →
      k ∈ (rs.foldl (checkReturnErrStep scan pathStr content) st).seen
  | [], _, _, h => h
  | a :: l, st, k, h =>
    bailFold_seen_mono scan pathStr content l _ k (bailStep_seen_mono scan pathStr content st a k h)

/-- After folding, every visited matching return expression's key is in
the seen set. -/
theorem bailFold_seen (scan : UseBailScan) (pathStr content : String) :
    ∀ (rs : List ReturnExprM) (st : BailVisitState) (r : ReturnExprM), r ∈ rs →
      returnErrFires r = true →
      (r.span.startLine, r.span.startCol) ∈
        (rs.foldl (checkReturnErrStep scan pathStr content) st).seen
  | [], _, _, h, _ => absurd h (List.not_mem_nil _)
  | a :: l, st, r, h, hf => by
    rcases List.mem_cons.mp h with heq | htail
    · subst heq
      exact bailFold_seen_mono scan pathStr content l _ _
        (bailStep_adds_key scan pathStr content st r hf)
    · exact bailFold_seen scan pathStr content l _ r htail hf

/-- C6: one set of violations per distinct (line, column) start position
per rule invocation.  For the format-macro visitor, revisiting a macro
whose span start was already visited (e.g. reached through both
`visit_expr_macro` and `visit_macro`) contributes nothing; for the
use-bail visitor, revisiting a `return` expression already visited
contributes nothing. -/
theorem c6_one_violation_per_position (pathStr content : String) :
    (∀ (pre post : List MacroInv) (m : MacroInv),
      (∃ m' ∈ pre, macroKey m' = macroKey m) →
      runFormatMacroVisitor pathStr content (pre ++ m :: post) =
        runFormatMacroVisitor pathStr content (pre ++ post)) ∧
    (∀ (uses : List (UseTree × Nat)) (pre post : List ReturnExprM) (r : ReturnExprM),
      r ∈ pre →
      runUseBailVisitor pathStr content uses (pre ++ r :: post) =
        runUseBailVisitor pathStr content uses (pre ++ post)) := by
  constructor
  · intro pre post m hm
    obtain ⟨m', hm', hkey⟩ := hm
    unfold runFormatMacroVisitor
    rw [foldl_mid_noop]
    apply fmtStep_noop
    rw [← hkey]
    exact fmtFold_seen pathStr content pre _ m' hm'
  · intro uses pre post r hr
    unfold runUseBailVisitor
    simp only []
    rw [foldl_mid_noop]
    by_cases hf : returnErrFires r = true
    · apply bailStep_noop_of_seen
      exact bailFold_seen _ pathStr content pre _ r hr hf
    · exact bailStep_noop_of_not_fires _ pathStr content _ r (by simpa using hf)

/-- C6 (witness): a macro and a return expression each visited twice
yield the same violations as visited once. -/
theorem c6_one_violation_per_position_witness :
    runFormatMacroVisitor "src/main.rs" c4_content ([c6_macroInv] ++ c6_macroInv :: []) =
      runFormatMacroVisitor "src/main.rs" c4_content ([c6_macroInv] ++ []) ∧
    runUseBailVisitor "src/main.rs" c6_retContent [] ([c6_retExpr] ++ c6_retExpr :: []) =
      runUseBailVisitor "src/main.rs" c6_retContent [] ([c6_retExpr] ++ []) :=
  ⟨(c6_one_violation_per_position "src/main.rs" c4_content).1 [c6_macroInv] [] c6_macroInv
     ⟨c6_macroInv, List.mem_singleton.mpr rfl, rfl⟩,
   (c6_one_violation_per_position "src/main.rs" c6_retContent).2 [] [c6_retExpr] [] c6_retExpr
     (List.mem_singleton.mpr rfl)⟩

/-! ### Import-scan lemmas (C10 infrastructure) -/

/-- The `record_import_position` never touches `bail_imported`. -/
theorem recordImportPosition_bail (content : String) (line : Nat) (st : UseBailScan) :
    (recordImportPosition content line st).bailImported = st.bailImported := by
  unfold recordImportPosition
  cases st.importInsertPos with
  | some p => rfl
  | none =>
    cases recordImportGo line content.toList 0 1 with
    | none => rfl
    | some p => rfl

mutual

/-- Once `bail_imported` is set, scanning more of a use tree keeps it. -/
theorem scanUseTree_bail_mono (content : String) (t : UseTree) (pfx : String) (line : Nat)
    (st : UseBailScan) (h : st.bailImported = true) :
    (scanUseTree content t pfx line st).bailImported = true :=
  match t with
  | .path ident sub => by
    rw [scanUseTree]
    apply scanUseTree_bail_mono
    split
    · rw [recordImportPosition_bail]
      exact h
    · split
      · rw [recordImportPosition_bail]
        exact h
      · exact h
  | .name ident => by
    rw [scanUseTree]
    split
    · rfl
    · exact h
  | .rename ident renameTo => by
    rw [scanUseTree]
    split
    · rfl
    · exact h
  | .glob => by
    rw [scanUseTree]
  | .group items => by
    rw [scanUseTree]
    exact scanUseTrees_bail_mono content items pfx line st h

/-- The `scanUseTree_bail_mono` over a list of trees. -/
theorem scanUseTrees_bail_mono (content : String) (ts : List UseTree) (pfx : String) (line : Nat)
    (st : UseBailScan) (h : st.bailImported = true) :
    (scanUseTrees content ts pfx line st).bailImported = true :=
  match ts with
  | [] => by
    rw [scanUseTrees]
    exact h
  | t :: rest => by
    rw [scanUseTrees]
    exact scanUseTrees_bail_mono content rest pfx line _
      (scanUseTree_bail_mono content t pfx line st h)

end

mutual

/-- Scanning a use tree containing a glob sets `bail_imported`. -/
theorem scanUseTree_glob_bail (content : String) (t : UseTree) (pfx : String) (line : Nat)
    (st : UseBailScan) (h : hasGlob t = true) :
    (scanUseTree content t pfx line st).bailImported = true :=
  match t with
  | .path ident sub => by
    rw [scanUseTree]
    exact scanUseTree_glob_bail content sub _ line _ (by rw [hasGlob] at h; exact h)
  | .name ident => by
    rw [hasGlob] at h
    cases h
  | .rename ident renameTo => by
    rw [hasGlob] at h
    cases h
  | .glob => by
    rw [scanUseTree]
  | .group items => by
    rw [scanUseTree]
    exact scanUseTrees_glob_bail content items pfx line st (by rw [hasGlob] at h; exact h)

/-- The `scanUseTree_glob_bail` over a list of trees. -/
theorem scanUseTrees_glob_bail (content : String) (ts : List UseTree) (pfx : String) (line : Nat)
    (st : UseBailScan) (h : hasGlobList ts = true) :
    (scanUseTrees content ts pfx line st).bailImported = true :=
  match ts with
  | [] => by
    rw [hasGlobList] at h
    cases h
  | t :: rest => by
    rw [scanUseTrees]
    rw [hasGlobList] at h
    rcases Bool.or_eq_true .. |>.mp h with hg | hrest
    · exact scanUseTrees_bail_mono content rest pfx line _
        (scanUseTree_glob_bail content t pfx line st hg)
    · exact scanUseTrees_glob_bail content rest pfx line _ hrest

end

/-- The import-scanning fold keeps `bail_imported`. -/
theorem scanFold_bail_mono (content : String) :
    ∀ (uses : List (UseTree × Nat)) (st : UseBailScan), st.bailImported = true →
      (uses.foldl (fun s tl => scanUseTree content tl.1 "" tl.2 s) st).bailImported = true
  | [], _, h => h
  | u :: rest, st, h =>
    scanFold_bail_mono content rest _ (scanUseTree_bail_mono content u.1 "" u.2 st h)

/-- The import-scanning fold sets `bail_imported` as soon as any use
item contains a glob. -/
theorem scanFold_glob (content : String) :
    ∀ (uses : List (UseTree × Nat)) (st : UseBailScan),
      uses.any (fun tl => hasGlob tl.1) = true →
      (uses.foldl (fun s tl => scanUseTree content tl.1 "" tl.2 s) st).bailImported = true
  | [], _, h => by cases h
  | u :: rest, st, h => by
    rw [List.any_cons] at h
    rcases Bool.or_eq_true .. |>.mp h with hg | hrest
    · exact scanFold_bail_mono content rest _ (scanUseTree_glob_bail content u.1 "" u.2 st hg)
    · exact scanFold_glob content rest _ hrest

/-- C10: a glob use-import marks `bail` as already imported, and with
`bail` imported, `create_fix` replaces exactly the span of the return
expression with `bail!(…)` — it never widens the range to insert a
`use …::bail;` import. -/
theorem c10_glob_import_no_widening :
    (∀ (content : String) (uses : List (UseTree × Nat)),
      uses.any (fun tl => hasGlob tl.1) = true →
      (scanImports content uses).bailImported = true) ∧
    (∀ (st : UseBailScan) (content : String) (retSpan : SpanLC) (mac : String) (rs re : Nat)
      (f : Fix),
      st.bailImported = true →
      spanPositionToByte content retSpan.startLine retSpan.startCol = some rs →
      spanPositionToByte content retSpan.endLine retSpan.endCol = some re →
      createBailFix st content retSpan mac = some f →
      f = { start_byte := rs, end_byte := re, replacement := "bail!(" ++ mac ++ ")" }) := by
  constructor
  · intro content uses h
    exact scanFold_glob content uses _ h
  · intro st content retSpan mac rs re f hbail h1 h2 hfix
    unfold createBailFix at hfix
    rw [h1, h2, hbail] at hfix
    simp only [] at hfix
    injection hfix with hfix
    exact hfix.symm

/-- C10 (witness): a file with `use eyre::*;` and a concrete return
expression span. -/
theorem c10_glob_import_no_widening_witness :
    (scanImports c10_content c10_uses).bailImported = true ∧
    ({ start_byte := 24, end_byte := 48, replacement := "bail!(\"boom\")" } : Fix) =
      { start_byte := 24, end_byte := 48, replacement := "bail!(" ++ "\"boom\"" ++ ")" } :=
  ⟨c10_glob_import_no_widening.1 c10_content c10_uses rfl,
   c10_glob_import_no_widening.2 c10_scan c10_content c10_retSpan "\"boom\"" 24 48
     { start_byte := 24, end_byte := 48, replacement := "bail!(\"boom\")" } rfl rfl rfl rfl⟩

/-! ### Position arithmetic (C9 infrastructure) -/

/-- A found index lies within the accumulator-shifted range. -/
theorem findIdx?_bounds {α : Type _} (p : α → Bool) :
    ∀ (l : List α) (i j : Nat), l.findIdx? p i = some j → i ≤ j ∧ j < i + l.length
  | [], i, j, h => by rw [List.findIdx?_nil] at h; cases h
  | a :: l, i, j, h => by
    rw [List.findIdx?_cons] at h
    have hlen : (a :: l).length = l.length + 1 := rfl
    split at h
    · injection h with h
      subst h
      omega
    · have := findIdx?_bounds p l (i + 1) j h
      omega

/-- If some entry satisfies the predicate, `findIdx?` succeeds at an
index no larger than that entry's. -/
theorem findIdx?_le_of_found {α : Type _} (p : α → Bool) :
    ∀ (l : List α) (i m : Nat) (c : α), l.get? m = some c → p c = true →
      ∃ j, l.findIdx? p i = some j ∧ j ≤ i + m
  | [], _, m, c, h, _ => by simp at h
  | a :: l, i, m, c, h, hp => by
    rw [List.findIdx?_cons]
    by_cases hpa : p a = true
    · exact ⟨i, by rw [if_pos hpa], by omega⟩
    · rw [if_neg hpa]
      cases m with
      | zero =>
        simp only [List.get?] at h
        injection h with h
        subst h
        exact absurd hp hpa
      | succ m' =>
        obtain ⟨j, hj, hle⟩ := findIdx?_le_of_found p l (i + 1) m' c (by simpa using h) hp
        exact ⟨j, hj, by omega⟩

/-- The `find_line_end` never exceeds the content length. -/
theorem findLineEnd_le_length (content : String) (pos : Nat) :
    findLineEnd content pos ≤ content.length := by
  unfold findLineEnd
  cases hfi : (content.toList.drop pos).findIdx? (fun c => c = '\n') with
  | none => exact le_rfl
  | some i =>
    have hb := findIdx?_bounds _ _ 0 i hfi
    have hlen := List.length_drop pos content.toList
    have hcl : content.toList.length = content.length := rfl
    simp only []
    omega

/-- The `find_line_end` stops no later than any newline at or after `pos`. -/
theorem findLineEnd_le_of_newline (content : String) (pos k : Nat)
    (hk : content.toList.get? k = some '\n') (hpk : pos ≤ k) :
    findLineEnd content pos ≤ k := by
  have hd : (content.toList.drop pos).get? (k - pos) = some '\n' := by
    rw [List.get?_eq_getElem?, List.getElem?_drop, show pos + (k - pos) = k by omega,
      ← List.get?_eq_getElem?]
    exact hk
  obtain ⟨j, hj, hle⟩ :=
    findIdx?_le_of_found (fun c => c = '\n') (content.toList.drop pos) 0 (k - pos) '\n' hd
      (by decide)
  unfold findLineEnd
  rw [hj]
  simp only []
  omega

/-- The default-carrying last element of a nonempty list is a member. -/
theorem getLastD_mem {α : Type _} : ∀ (l : List α) (d : α), l ≠ [] → (l.getLast?).getD d ∈ l
  | [], _, h => absurd rfl h
  | a :: l, d, _ => by
    rw [List.getLast?_eq_getLast (a :: l) (by simp)]
    simp only [Option.getD_some]
    exact List.getLast_mem _

/-- Along a chain of non-overlapping blocks, the first block starts no
later than the last block ends. -/
theorem chain_start_le_getLast_end :
    ∀ (first : ImplBlockInfo) (rest : List ImplBlockInfo),
      List.Chain' (fun a b => a.end_byte ≤ b.start_byte) (first :: rest) →
      (∀ b ∈ first :: rest, b.start_byte ≤ b.end_byte) →
      first.start_byte ≤ (((first :: rest).getLast?).getD first).end_byte
  | first, [], _, hall => by
    simp only [List.getLast?_singleton, Option.getD_some]
    exact hall first (by simp)
  | first, b :: rest, hchain, hall => by
    have hfb : first.end_byte ≤ b.start_byte := (List.chain'_cons.mp hchain).1
    have hrec := chain_start_le_getLast_end b rest (List.chain'_cons.mp hchain).2
      (fun x hx => hall x (List.mem_cons_of_mem _ hx))
    have hfirst : first.start_byte ≤ first.end_byte := hall first (List.mem_cons_self _ _)
    rw [List.getLast?_cons_cons]
    rw [List.getLast?_eq_getLast (b :: rest) (by simp)] at hrec ⊢
    simp only [Option.getD_some] at hrec ⊢
    omega

/-- C9: the fix constructors of the embedded rules respect the `Fix`
invariant `0 ≤ start_byte ≤ end_byte ≤ len(content)` whenever the parser
spans they consume are truthful (denote in-bounds positions in source
order): the impl-relocation fix, the embed-simple-vars whole-macro fix,
the use-bail fix, and the join-split-impls fix. -/
theorem c9_fix_bounds :
    (∀ (content : String) (td : TypeDefInfo) (ib : ImplBlockPos) (f : Fix),
      ib.end_byte ≤ content.length →
      ib.start_byte ≤ ib.end_byte →
      (∃ k, td.end_byte ≤ k ∧ k < ib.start_byte ∧ content.toList.get? k = some '\n') →
      createRelocationFix content td ib = some f →
      f.start_byte ≤ f.end_byte ∧ f.end_byte ≤ content.length) ∧
    (∀ (newFmt : String) (fmtSpan lastSp : SpanLC) (content : String)
      (fmtStart lastEnd : Nat) (f : Fix),
      spanPositionToByte content fmtSpan.startLine fmtSpan.startCol = some fmtStart →
      spanPositionToByte content lastSp.endLine lastSp.endCol = some lastEnd →
      fmtStart ≤ lastEnd → lastEnd ≤ content.length →
      createFullMacroFix newFmt fmtSpan (some lastSp) content = some f →
      f.start_byte ≤ f.end_byte ∧ f.end_byte ≤ content.length) ∧
    (∀ (st : UseBailScan) (content : String) (retSpan : SpanLC) (mac : String)
      (rs re : Nat) (f : Fix),
      spanPositionToByte content retSpan.startLine retSpan.startCol = some rs →
      spanPositionToByte content retSpan.endLine retSpan.endCol = some re →
      rs ≤ re → re ≤ content.length →
      createBailFix st content retSpan mac = some f →
      f.start_byte ≤ f.end_byte ∧ f.end_byte ≤ content.length) ∧
    (∀ (content : String) (blocks : List ImplBlockInfo) (f : Fix),
      (∀ b ∈ blocks, b.start_byte ≤ b.end_byte ∧ b.end_byte ≤ content.length) →
      List.Chain' (fun a b => a.end_byte ≤ b.start_byte) blocks →
      joinSplitFix content blocks = some f →
      f.start_byte ≤ f.end_byte ∧ f.end_byte ≤ content.length) := by
  refine ⟨?_, ?_, ?_, ?_⟩
  · intro content td ib f hlen horder hnl hfix
    obtain ⟨k, hk1, hk2, hk3⟩ := hnl
    have hins : findLineEnd content td.end_byte ≤ k :=
      findLineEnd_le_of_newline content td.end_byte k hk3 (by omega)
    unfold createRelocationFix at hfix
    simp only [] at hfix
    split at hfix <;>
      (injection hfix with hfix
       rw [← hfix]
       exact ⟨by simp only []; omega, by simp only []; omega⟩)
  · intro newFmt fmtSpan lastSp content fmtStart lastEnd f h1 h2 hle hlen hfix
    unfold createFullMacroFix at hfix
    simp only [] at hfix
    rw [h1] at hfix
    simp only [] at hfix
    rw [h2] at hfix
    simp only [] at hfix
    split at hfix
    · cases hfix
    · injection hfix with hfix
      rw [← hfix]
      exact ⟨hle, hlen⟩
  · intro st content retSpan mac rs re f h1 h2 hle hlen hfix
    unfold createBailFix at hfix
    rw [h1, h2] at hfix
    simp only [] at hfix
    cases hb : st.bailImported with
    | true =>
      rw [hb] at hfix
      simp only [] at hfix
      injection hfix with hfix
      rw [← hfix]
      exact ⟨hle, hlen⟩
    | false =>
      rw [hb] at hfix
      cases hip : st.importInsertPos with
      | none =>
        rw [hip] at hfix
        simp only [] at hfix
        injection hfix with hfix
        rw [← hfix]
        exact ⟨hle, hlen⟩
      | some importPos =>
        rw [hip] at hfix
        simp only [] at hfix
        cases hpf : st.importPfx with
        | none =>
          rw [hpf] at hfix
          cases hfix
        | some pfx =>
          rw [hpf] at hfix
          simp only [] at hfix
          split at hfix <;>
            (injection hfix with hfix
             rw [← hfix]
             constructor <;> simp only [] <;> omega)
  · intro content blocks f hall hchain hfix
    unfold joinSplitFix at hfix
    match blocks, hchain, hall, hfix with
    | [], _, _, hfix => cases hfix
    | [a], _, _, hfix => cases hfix
    | a :: b :: rest, hchain, hall, hfix =>
      injection hfix with hfix
      rw [← hfix]
      have hstart := chain_start_le_getLast_end a (b :: rest) hchain
        (fun x hx => (hall x hx).1)
      have hmem := getLastD_mem (a :: b :: rest) a (by simp)
      exact ⟨hstart, (hall _ hmem).2⟩

/-- C9 (witness): the four constructors at concrete inputs. -/
theorem c9_fix_bounds_witness :
    ((26 : Nat) ≤ 98 ∧ 98 ≤ c1_content.length) ∧
    ((38 : Nat) ≤ 55 ∧ 55 ≤ c4_content.length) ∧
    ((24 : Nat) ≤ 48 ∧ 48 ≤ c10_content.length) ∧
    ((0 : Nat) ≤ 49 ∧ 49 ≤ c9_joinContent.length) :=
  ⟨c9_fix_bounds.1 c1_content c1_typeDef c1_implBlock
     { start_byte := 26, end_byte := 98,
       replacement := "\nimpl Foo \x7b\n    fn new() -> Self \x7b Self \x7b x: 0 \x7d \x7d\n\x7d\n\nfn unrelated() \x7b\x7d" }
     (by decide) (by decide) ⟨26, by decide, by decide, by decide⟩ rfl,
   c9_fix_bounds.2.1 "\"Hello, \x7bname\x7d\"" ⟨1, 38, 1, 49⟩ ⟨1, 51, 1, 55⟩ c4_content 38 55
     { start_byte := 38, end_byte := 55, replacement := "\"Hello, \x7bname\x7d\"" }
     rfl rfl (by decide) (by decide) rfl,
   c9_fix_bounds.2.2.1 c10_scan c10_content c10_retSpan "\"boom\"" 24 48
     { start_byte := 24, end_byte := 48, replacement := "bail!(\"boom\")" }
     rfl rfl (by decide) (by decide) rfl,
   c9_fix_bounds.2.2.2 c9_joinContent c9_joinBlocks
     { start_byte := 0, end_byte := 49,
       replacement := "impl Foo \x7b\n fn one() \x7b\x7d \n fn two() \x7b\x7d \n\x7d" }
     (by decide) (by unfold c9_joinBlocks; exact List.chain'_cons.mpr ⟨by decide, List.chain'_singleton _⟩) rfl⟩

end Codestyle
